import Mathlib

/-!
Shallow embedding of the epoxy_streams reactive stream core
(src/epoxy_streams/src/streams.rs).

Modelling conventions:
* An `Arc<T>` is a shared immutable pointer; at the level of observed values
  it is the identity, so plain values of type `T` stand for `Arc<T>`.
* The `BTreeMap<u16, callback>` subscriber registry is an association list
  sorted strictly ascending by key; iterating the map is iterating the list.
* A boxed callback `Box<dyn Fn(Arc<T>)>` is modelled by the inductive `CB`:
  either an opaque external listener (with a label), or the forwarding
  closure `move |item| stream.emit_rc(item)` installed by `pipe_into`,
  recorded together with the index of its target stream in a world.
* `Box<dyn Any>` is a pair of a runtime type id and a payload word;
  `downcast` succeeds exactly when the stored type id matches the requested
  one.
* Rust panics are `Except.error`; the mutex is a no-op in this sequential
  model, every operation being one atomic critical section.
* u16 arithmetic: `self.highest_id += 1` is modelled with wrapping
  arithmetic `(· + 1) % 65536`.
* Emission does not return a new state: `emit_rc` takes `&self` in the
  source, so it is a pure function from the state to the trace of callback
  invocations it performs, in iteration order.
-/

/-- A registered callback: an opaque external listener, or the forwarding
closure created by `pipe_into`, which targets the stream at the given index
of a world. -/
inductive CB : Type where
  | ext (label : Nat)
  | forward (target : Nat)
deriving DecidableEq

/-- Model of `Box<dyn Any + Send + Sync>`: a runtime type id together with
the payload it erases. -/
structure DynBox : Type where
  tyId : Nat
  data : Nat
deriving DecidableEq

/-- Model of `StreamImpl<T>`: the shared stream state behind the mutex. -/
structure StreamImpl (T : Type) : Type where
  highest_id : Nat
  is_alive : Bool
  on_emit : List (Nat × CB)
  extra_fields : Option DynBox
deriving DecidableEq

variable {T R : Type}

/-- `BTreeMap::insert`: keep the association list sorted by key, replacing
an existing binding of the same key. -/
def btreeInsert (k : Nat) (cb : CB) : List (Nat × CB) → List (Nat × CB)
  | [] => [(k, cb)]
  | e :: rest =>
    if k < e.1 then (k, cb) :: e :: rest
    else if k = e.1 then (k, cb) :: rest
    else e :: btreeInsert k cb rest

/-- `BTreeMap::remove`: drop the (unique, in a well-formed map) binding of
the key, if present. -/
def btreeRemove (k : Nat) : List (Nat × CB) → List (Nat × CB)
  | [] => []
  | e :: rest => if e.1 = k then rest else e :: btreeRemove k rest

/-- `BTreeMap::get`: first binding of the key, if any. -/
def btreeLookup (k : Nat) : List (Nat × CB) → Option CB
  | [] => none
  | e :: rest => if e.1 = k then some e.2 else btreeLookup k rest

/-- Keys of the registry, in iteration order. -/
def keysOf (s : StreamImpl T) : List Nat := s.on_emit.map Prod.fst

/-- `StreamImpl::subscribe`: hand out `highest_id`, bump the (u16) counter,
insert the listener, return the assigned id together with the new state. -/
def StreamImpl.subscribe (s : StreamImpl T) (listener : CB) : Nat × StreamImpl T :=
  let new_subscription_id := s.highest_id
  (new_subscription_id,
   { s with
      highest_id := (s.highest_id + 1) % 65536,
      on_emit := btreeInsert new_subscription_id listener s.on_emit })

/-- `StreamImpl::emit_rc`: the for loop over the registry calls every
registered callback once, in map iteration order, with a clone of the shared
value; this function is its invocation trace, a list of
(subscriber id, argument) pairs. -/
def StreamImpl.emit_rc (s : StreamImpl T) (value : T) : List (Nat × T) :=
  s.on_emit.map (fun e => (e.1, value))

/-- A `Subscription` records the id assigned by `subscribe`; its cloned
stream handle is the explicitly-passed state in this model. -/
structure Subscription : Type where
  id : Nat
deriving DecidableEq

/-- `Stream::new`: fresh state with counter 0, alive, empty registry, no
extension payload. -/
def Stream.new : StreamImpl T :=
  { highest_id := 0, is_alive := true, on_emit := [], extra_fields := none }

/-- `Stream::new_with_fields`: like `Stream::new` but with an extension
payload installed at construction. -/
def Stream.new_with_fields (fields : DynBox) : StreamImpl T :=
  { highest_id := 0, is_alive := true, on_emit := [], extra_fields := some fields }

/-- `Stream::subscribe`: lock, delegate to `StreamImpl::subscribe`, and wrap
the assigned id in a `Subscription`. -/
def Stream.subscribe (s : StreamImpl T) (listener : CB) : Subscription × StreamImpl T :=
  let r := StreamImpl.subscribe s listener
  (⟨r.1⟩, r.2)

/-- `Stream::count_subscribers`: size of the registry. -/
def Stream.count_subscribers (s : StreamImpl T) : Nat := s.on_emit.length

/-- `Stream::unsubscribe_by_id`: lock and remove the binding of the id. -/
def Stream.unsubscribe_by_id (s : StreamImpl T) (subscription_id : Nat) : StreamImpl T :=
  { s with on_emit := btreeRemove subscription_id s.on_emit }

/-- `Stream::emit_rc`: lock and delegate to `StreamImpl::emit_rc`. -/
def Stream.emit_rc (s : StreamImpl T) (value : T) : List (Nat × T) :=
  StreamImpl.emit_rc s value

/-- `Stream::pipe_into`: subscribe the forwarding closure
`move |item| stream.emit_rc(item)` on this stream, the closure's captured
handle being the sink's stream at the given world index. -/
def Stream.pipe_into (s : StreamImpl T) (sinkIdx : Nat) : Subscription × StreamImpl T :=
  Stream.subscribe s (CB.forward sinkIdx)

/-- `Drop for Subscription`: dropping calls `unsubscribe_by_id` with the
stored id. -/
def Subscription.drop (sub : Subscription) (s : StreamImpl T) : StreamImpl T :=
  Stream.unsubscribe_by_id s sub.id

/-- `Stream::unsubscribe`: the body is empty; moving the subscription into
the call drops it, which runs `Drop for Subscription`. -/
def Stream.unsubscribe (s : StreamImpl T) (subscription : Subscription) : StreamImpl T :=
  Subscription.drop subscription s

/-- `Drop for Sink`: lock and set `is_alive` to false. -/
def Sink.drop (s : StreamImpl T) : StreamImpl T :=
  { s with is_alive := false }

/-- `Sink::new`: a sink owning a brand-new stream. -/
def Sink.new : StreamImpl T := Stream.new

/-- `Arc::new`: wrap a value into a shared pointer; the identity on observed
values in this model. -/
def Arc.new (value : T) : T := value

/-- `Sink::emit_rc`: forward the shared value to `Stream::emit_rc`. -/
def Sink.emit_rc (s : StreamImpl T) (value : T) : List (Nat × T) :=
  Stream.emit_rc s value

/-- `Sink::emit`: wrap the value in an `Arc` and forward to `emit_rc`. -/
def Sink.emit (s : StreamImpl T) (value : T) : List (Nat × T) :=
  Sink.emit_rc s (Arc.new value)

/-- `Box<dyn Any>::downcast_ref::<X>` and `downcast_mut::<X>`: succeed with
the payload exactly when the stored type id is the requested one. -/
def Any.downcast (tyId : Nat) (b : DynBox) : Option Nat :=
  if b.tyId = tyId then some b.data else none

/-- `Stream::read_extra_fields`: run the callback on the downcast payload;
panic (modelled as `Except.error`) when the extension is absent or its
stored type does not match. -/
def Stream.read_extra_fields (tyId : Nat) (s : StreamImpl T) (cb : Nat → R) :
    Except String R :=
  match s.extra_fields with
  | some extra_field_box =>
    match Any.downcast tyId extra_field_box with
    | some fields => Except.ok (cb fields)
    | none => Except.error "Invalid type for derived stream field."
  | none => Except.error "Invalid type for derived stream field."

/-- `Stream::mutate_extra_fields`: run the callback with exclusive access to
the downcast payload, producing the updated state; panic (modelled as
`Except.error`) when the extension is absent or its stored type does not
match. -/
def Stream.mutate_extra_fields (tyId : Nat) (s : StreamImpl T) (cb : Nat → Nat) :
    Except String (StreamImpl T) :=
  match s.extra_fields with
  | some extra_field_box =>
    match Any.downcast tyId extra_field_box with
    | some fields =>
      Except.ok { s with extra_fields := some ⟨extra_field_box.tyId, cb fields⟩ }
    | none => Except.error "Invalid type for derived stream field."
  | none => Except.error "Invalid type for derived stream field."

/-- Emission trace in a world of streams (indexed by position), fuelled by
the nesting depth of forwarding closures. One event `(sid, id, v)` records
stream `sid` invoking the callback registered under `id` with value `v`.
An external callback produces no further events; the `pipe_into` closure
re-enters `emit_rc` on its target stream. Fuel 0 cuts recursion off: the
source would deadlock on a forwarding cycle (non-reentrant mutex), so
claims are stated with fuel covering their acyclic configuration. -/
def emitTraceW : Nat → List (StreamImpl T) → Nat → T → List (Nat × Nat × T)
  | 0, _, _, _ => []
  | f + 1, w, sid, value =>
    match w.get? sid with
    | none => []
    | some s =>
      s.on_emit.flatMap (fun e =>
        (sid, e.1, value) ::
          (match e.2 with
           | CB.ext _ => []
           | CB.forward target => emitTraceW f w target value))

/-- Values delivered to the callback registered under id `k`, extracted
from a single-stream invocation trace. -/
def callsTo (k : Nat) (tr : List (Nat × T)) : List T :=
  tr.filterMap (fun e => if e.1 = k then some e.2 else none)

/-- Values delivered to subscriber `k` of stream `sid`, extracted from a
world trace. -/
def eventsAtSub (sid k : Nat) (tr : List (Nat × Nat × T)) : List T :=
  tr.filterMap (fun ev => if ev.1 = sid ∧ ev.2.1 = k then some ev.2.2 else none)

/-- All events of a world trace belonging to stream `sid`. -/
def eventsAtStream (sid : Nat) (tr : List (Nat × Nat × T)) : List (Nat × Nat × T) :=
  tr.filterMap (fun ev => if ev.1 = sid then some ev else none)

/-- Client-visible operations on one stream: registering a listener
(`subscribe`, also what `pipe_into` does), destroying a subscription by any
path (scope exit, explicit discard, or `Stream::unsubscribe`), emitting,
and dropping the owning sink. -/
inductive Op (T : Type) : Type where
  | subscribe (listener : CB)
  | dropSub (id : Nat)
  | emit (value : T)
  | sinkDrop

/-- A stream state together with ghost bookkeeping: ids of the live
(not-yet-destroyed) subscriptions, and every id ever assigned, in order. -/
structure MState (T : Type) : Type where
  impl : StreamImpl T
  live : List Nat
  assigned : List Nat
deriving DecidableEq

/-- The state right after `Sink::new`. -/
def initState : MState T := ⟨Stream.new, [], []⟩

/-- One client operation. `emit` takes `&self` everywhere in the source and
the mutex serialises it against the other calls, so it leaves the state
untouched; its trace is `StreamImpl.emit_rc`. -/
def step (st : MState T) : Op T → MState T
  | Op.subscribe listener =>
    let r := StreamImpl.subscribe st.impl listener
    ⟨r.2, st.live ++ [r.1], st.assigned ++ [r.1]⟩
  | Op.dropSub id => ⟨Stream.unsubscribe_by_id st.impl id, st.live.erase id, st.assigned⟩
  | Op.emit _ => st
  | Op.sinkDrop => ⟨Sink.drop st.impl, st.live, st.assigned⟩

/-- Run a list of operations from a given state. -/
def runFrom (st : MState T) (ops : List (Op T)) : MState T := ops.foldl step st

/-- Run a list of operations from the freshly-constructed state. -/
def run (ops : List (Op T)) : MState T := runFrom initState ops

/-- Number of subscriptions created along a list of operations. -/
def countSubOps (ops : List (Op T)) : Nat :=
  ops.countP (fun o => match o with | Op.subscribe _ => true | _ => false)

/-- Whether an operation is the sink's destruction. -/
def isSinkDrop : Op T → Bool
  | Op.sinkDrop => true
  | _ => false

/-! Helper lemmas about the registry and traces. -/

lemma pickNone {u : T} {l : List Nat} {k : Nat} (h : k ∉ l) :
    l.filterMap (fun i => if i = k then some u else none) = [] := by
  induction l with
  | nil => rfl
  | cons a t ih =>
    have ha : a ≠ k := fun hak => h (hak ▸ List.mem_cons_self a t)
    have ht : k ∉ t := fun hkt => h (List.mem_cons_of_mem a hkt)
    simp [List.filterMap_cons, ha, ih ht]

lemma pickUnique {u : T} {l : List Nat} {k : Nat} (hnd : l.Nodup) (hk : k ∈ l) :
    l.filterMap (fun i => if i = k then some u else none) = [u] := by
  induction l with
  | nil => cases hk
  | cons a t ih =>
    rcases List.mem_cons.mp hk with h | h
    · subst h
      simp [List.filterMap_cons, pickNone (List.nodup_cons.mp hnd).1]
    · have ha : a ≠ k := by
        intro hak
        exact (List.nodup_cons.mp hnd).1 (hak ▸ h)
      simp [List.filterMap_cons, ha, ih (List.nodup_cons.mp hnd).2 h]

lemma callsTo_emit_rc (s : StreamImpl T) (u : T) (k : Nat) :
    callsTo k (StreamImpl.emit_rc s u) =
      (keysOf s).filterMap (fun i => if i = k then some u else none) := by
  simp only [callsTo, StreamImpl.emit_rc, keysOf, List.filterMap_map]
  rfl

lemma callsTo_append (k : Nat) (a b : List (Nat × T)) :
    callsTo k (a ++ b) = callsTo k a ++ callsTo k b := by
  simp [callsTo, List.filterMap_append]

lemma btreeInsert_append_of_lt {m : List (Nat × CB)} {k : Nat} (cb : CB)
    (h : ∀ e ∈ m, e.1 < k) : btreeInsert k cb m = m ++ [(k, cb)] := by
  induction m with
  | nil => rfl
  | cons e t ih =>
    have he : e.1 < k := h e (List.mem_cons_self e t)
    have h1 : ¬ k < e.1 := by omega
    have h2 : ¬ k = e.1 := by omega
    simp [btreeInsert, h1, h2, ih (fun x hx => h x (List.mem_cons_of_mem e hx))]

lemma map_fst_btreeRemove (m : List (Nat × CB)) (k : Nat) :
    (btreeRemove k m).map Prod.fst = (m.map Prod.fst).erase k := by
  induction m with
  | nil => rfl
  | cons e t ih =>
    by_cases h : e.1 = k
    · simp [btreeRemove, h, List.erase_cons]
    · simp [btreeRemove, h, List.erase_cons, ih]

lemma btreeRemove_of_not_mem {m : List (Nat × CB)} {k : Nat}
    (h : k ∉ m.map Prod.fst) : btreeRemove k m = m := by
  induction m with
  | nil => rfl
  | cons e t ih =>
    have he : e.1 ≠ k := by
      intro hek
      exact h (by simp [hek])
    have ht : k ∉ t.map Prod.fst := by
      intro hkt
      exact h (by simp [hkt])
    simp [btreeRemove, he, ih ht]

lemma btreeRemove_sublist (m : List (Nat × CB)) (k : Nat) :
    (btreeRemove k m).Sublist m := by
  induction m with
  | nil => simp [btreeRemove]
  | cons e t ih =>
    by_cases h : e.1 = k
    · simp [btreeRemove, h]
    · simpa [btreeRemove, h] using List.Sublist.cons₂ e ih

lemma btreeLookup_eq_none {m : List (Nat × CB)} {k : Nat}
    (h : k ∉ m.map Prod.fst) : btreeLookup k m = none := by
  induction m with
  | nil => rfl
  | cons e t ih =>
    have he : e.1 ≠ k := by
      intro hek
      exact h (by simp [hek])
    have ht : k ∉ t.map Prod.fst := by
      intro hkt
      exact h (by simp [hkt])
    simp [btreeLookup, he, ih ht]

lemma btreeLookup_btreeRemove_self {m : List (Nat × CB)} {k : Nat}
    (hnd : (m.map Prod.fst).Nodup) : btreeLookup k (btreeRemove k m) = none := by
  have : k ∉ (btreeRemove k m).map Prod.fst := by
    rw [map_fst_btreeRemove]
    exact List.Nodup.not_mem_erase hnd
  exact btreeLookup_eq_none this

lemma btreeLookup_btreeRemove_ne (m : List (Nat × CB)) {i k : Nat} (hik : i ≠ k) :
    btreeLookup i (btreeRemove k m) = btreeLookup i m := by
  induction m with
  | nil => rfl
  | cons e t ih =>
    by_cases h : e.1 = k
    · have hei : e.1 ≠ i := by omega
      rw [show btreeRemove k (e :: t) = t by simp [btreeRemove, h]]
      simp [btreeLookup, hei]
    · rw [show btreeRemove k (e :: t) = e :: btreeRemove k t by simp [btreeRemove, h]]
      by_cases h2 : e.1 = i
      · simp [btreeLookup, h2]
      · simp [btreeLookup, h2, ih]

lemma btreeRemove_eq_filter {m : List (Nat × CB)} {k : Nat}
    (hnd : (m.map Prod.fst).Nodup) :
    btreeRemove k m = m.filter (fun e => e.1 ≠ k) := by
  induction m with
  | nil => rfl
  | cons e t ih =>
    obtain ⟨hhead, htail⟩ := List.nodup_cons.mp hnd
    by_cases h : e.1 = k
    · have hmem : ∀ a ∈ t, a.1 ≠ k := by
        intro a ha hak
        exact hhead (by
          have h1 : a.1 ∈ t.map Prod.fst := List.mem_map_of_mem Prod.fst ha
          rw [hak] at h1
          rw [h]
          exact h1)
      have hfil : t.filter (fun e => !decide (e.1 = k)) = t :=
        List.filter_eq_self.mpr (by
          intro a ha
          simpa using hmem a ha)
      simp [btreeRemove, h, List.filter_cons, hfil]
    · simp [btreeRemove, h, List.filter_cons, ih htail]

/-! Claim theorems. -/

/-- C1: `emit_rc` invokes every currently-registered subscriber callback
exactly once, in ascending subscriber-id order, synchronously, passing each
callback the same shared value; over a sequence of emissions against a fixed
subscriber set, each subscriber's callback fires exactly once per emitted
value, in emission order. -/
theorem emit_rc_delivers_once_per_subscriber (s : StreamImpl T)
    (hs : (keysOf s).Pairwise (· < ·)) (v : T) (vs : List T) (k : Nat)
    (hk : k ∈ keysOf s) :
    (StreamImpl.emit_rc s v).map Prod.fst = keysOf s ∧
    ((StreamImpl.emit_rc s v).map Prod.fst).Pairwise (· < ·) ∧
    (∀ e ∈ StreamImpl.emit_rc s v, e.2 = v) ∧
    callsTo k (vs.flatMap (fun u => StreamImpl.emit_rc s u)) = vs := by
  have hids : (StreamImpl.emit_rc s v).map Prod.fst = keysOf s := by
    simp [StreamImpl.emit_rc, keysOf, List.map_map]
  have hnd : (keysOf s).Nodup := hs.imp (fun h => Nat.ne_of_lt h)
  refine ⟨hids, ?_, ?_, ?_⟩
  · rw [hids]
    exact hs
  · intro e he
    simp only [StreamImpl.emit_rc, List.mem_map] at he
    obtain ⟨a, -, rfl⟩ := he
    rfl
  · induction vs with
    | nil => rfl
    | cons u us ih =>
      rw [List.flatMap_cons, callsTo_append, callsTo_emit_rc, pickUnique hnd hk, ih]
      rfl

/-- Witness for C1 at a concrete two-subscriber stream. -/
theorem emit_rc_delivers_once_per_subscriber_witness :
    callsTo 1 ([5, 7].flatMap (fun u =>
      StreamImpl.emit_rc
        (⟨2, true, [(0, CB.ext 0), (1, CB.ext 1)], none⟩ : StreamImpl Nat) u)) =
      [5, 7] :=
  (emit_rc_delivers_once_per_subscriber
    (⟨2, true, [(0, CB.ext 0), (1, CB.ext 1)], none⟩ : StreamImpl Nat)
    (by decide) 0 [5, 7] 1 (by decide)).2.2.2

lemma filter_pair (m : List (Nat × CB)) (v : T) (p : Nat → Bool) :
    (m.filter (fun e => p e.1)).map (fun e => ((e.1 : Nat), v)) =
      (m.map (fun e => ((e.1 : Nat), v))).filter (fun e => p e.1) := by
  induction m with
  | nil => rfl
  | cons e t ih => cases hp : p e.1 <;> simp [List.filter_cons, hp, ih]

/-- C4: destroying a Subscription (any path runs `unsubscribe_by_id`)
removes exactly the one registry entry keyed by its id; every other
subscriber's entry is unchanged and keeps receiving subsequent emissions. -/
theorem subscription_drop_removes_exactly_one (s : StreamImpl T)
    (hnd : (keysOf s).Nodup) (id : Nat) (v : T) :
    (Stream.unsubscribe_by_id s id).on_emit = s.on_emit.filter (fun e => e.1 ≠ id) ∧
    btreeLookup id (Stream.unsubscribe_by_id s id).on_emit = none ∧
    (∀ k, k ≠ id →
      btreeLookup k (Stream.unsubscribe_by_id s id).on_emit = btreeLookup k s.on_emit) ∧
    StreamImpl.emit_rc (Stream.unsubscribe_by_id s id) v =
      (StreamImpl.emit_rc s v).filter (fun e => e.1 ≠ id) := by
  have hnd' : (s.on_emit.map Prod.fst).Nodup := hnd
  refine ⟨?_, ?_, ?_, ?_⟩
  · simpa [Stream.unsubscribe_by_id] using btreeRemove_eq_filter hnd'
  · simpa [Stream.unsubscribe_by_id] using
      @btreeLookup_btreeRemove_self s.on_emit id hnd'
  · intro k hk
    simpa [Stream.unsubscribe_by_id] using btreeLookup_btreeRemove_ne s.on_emit hk
  · show (btreeRemove id s.on_emit).map (fun e => (e.1, v)) = _
    rw [btreeRemove_eq_filter hnd']
    exact filter_pair s.on_emit v (fun i => decide (i ≠ id))

/-- Witness for C4 at a concrete two-subscriber stream. -/
theorem subscription_drop_removes_exactly_one_witness :
    StreamImpl.emit_rc
        (Stream.unsubscribe_by_id
          (⟨2, true, [(0, CB.ext 0), (1, CB.ext 1)], none⟩ : StreamImpl Nat) 0) 5 =
      (StreamImpl.emit_rc
        (⟨2, true, [(0, CB.ext 0), (1, CB.ext 1)], none⟩ : StreamImpl Nat) 5).filter
          (fun e => e.1 ≠ 0) :=
  (subscription_drop_removes_exactly_one
    (⟨2, true, [(0, CB.ext 0), (1, CB.ext 1)], none⟩ : StreamImpl Nat)
    (by decide) 0 5).2.2.2

/-- C8: `unsubscribe_by_id` is an idempotent removal: removing an absent id
leaves the state unchanged (no error), and removing twice equals removing
once. -/
theorem unsubscribe_by_id_idempotent (s : StreamImpl T)
    (hnd : (keysOf s).Nodup) (id : Nat) :
    (id ∉ keysOf s → Stream.unsubscribe_by_id s id = s) ∧
    Stream.unsubscribe_by_id (Stream.unsubscribe_by_id s id) id =
      Stream.unsubscribe_by_id s id := by
  constructor
  · intro h
    cases s with
    | mk hid al m ex => simp [Stream.unsubscribe_by_id, btreeRemove_of_not_mem h]
  · have habs : id ∉ (btreeRemove id s.on_emit).map Prod.fst := by
      rw [map_fst_btreeRemove]
      exact List.Nodup.not_mem_erase hnd
    simp [Stream.unsubscribe_by_id, btreeRemove_of_not_mem habs]

/-- Witness for C8 at a concrete stream: removing an absent id is the
identity and removal is idempotent. -/
theorem unsubscribe_by_id_idempotent_witness :
    Stream.unsubscribe_by_id
        (⟨2, true, [(0, CB.ext 0), (1, CB.ext 1)], none⟩ : StreamImpl Nat) 5 =
      (⟨2, true, [(0, CB.ext 0), (1, CB.ext 1)], none⟩ : StreamImpl Nat) ∧
    Stream.unsubscribe_by_id
        (Stream.unsubscribe_by_id
          (⟨2, true, [(0, CB.ext 0), (1, CB.ext 1)], none⟩ : StreamImpl Nat) 1) 1 =
      Stream.unsubscribe_by_id
        (⟨2, true, [(0, CB.ext 0), (1, CB.ext 1)], none⟩ : StreamImpl Nat) 1 :=
  ⟨(unsubscribe_by_id_idempotent
      (⟨2, true, [(0, CB.ext 0), (1, CB.ext 1)], none⟩ : StreamImpl Nat)
      (by decide) 5).1 (by decide),
   (unsubscribe_by_id_idempotent
      (⟨2, true, [(0, CB.ext 0), (1, CB.ext 1)], none⟩ : StreamImpl Nat)
      (by decide) 1).2⟩

/-- C9: the explicit `Stream::unsubscribe` entry point produces exactly the
state produced by dropping the Subscription immediately, namely
`unsubscribe_by_id` of its id, whose effect on the key set is erasure. -/
theorem unsubscribe_is_subscription_drop :
    ∀ (s : StreamImpl T) (sub : Subscription),
      Stream.unsubscribe s sub = Subscription.drop sub s ∧
      Stream.unsubscribe s sub = Stream.unsubscribe_by_id s sub.id ∧
      keysOf (Stream.unsubscribe s sub) = (keysOf s).erase sub.id := by
  intro s sub
  refine ⟨rfl, rfl, ?_⟩
  simp [Stream.unsubscribe, Subscription.drop, Stream.unsubscribe_by_id, keysOf,
    map_fst_btreeRemove]

/-- C7: `read_extra_fields` and `mutate_extra_fields` run the callback with
(read or exclusive) access to the payload exactly when an extension is
present and its stored type id matches; otherwise they panic with
"Invalid type for derived stream field." rather than returning a
recoverable value. -/
theorem extension_access_downcast_or_panic :
    ∀ (hid : Nat) (al : Bool) (m : List (Nat × CB)) (b : DynBox) (tyId : Nat)
      (cb : Nat → R) (cbm : Nat → Nat),
      Stream.read_extra_fields tyId (⟨hid, al, m, none⟩ : StreamImpl T) cb =
        Except.error "Invalid type for derived stream field." ∧
      Stream.read_extra_fields tyId (⟨hid, al, m, some b⟩ : StreamImpl T) cb =
        (if b.tyId = tyId then Except.ok (cb b.data)
         else Except.error "Invalid type for derived stream field.") ∧
      Stream.mutate_extra_fields tyId (⟨hid, al, m, none⟩ : StreamImpl T) cbm =
        Except.error "Invalid type for derived stream field." ∧
      Stream.mutate_extra_fields tyId (⟨hid, al, m, some b⟩ : StreamImpl T) cbm =
        (if b.tyId = tyId then
          Except.ok (⟨hid, al, m, some ⟨b.tyId, cbm b.data⟩⟩ : StreamImpl T)
         else Except.error "Invalid type for derived stream field.") := by
  intro hid al m b tyId cb cbm
  refine ⟨rfl, ?_, rfl, ?_⟩ <;>
    by_cases h : b.tyId = tyId <;>
      simp [Stream.read_extra_fields, Stream.mutate_extra_fields, Any.downcast, h]

/-- C10: emitting (through `Sink::emit`, `Sink::emit_rc` or
`Stream::emit_rc`, all of which reduce to `StreamImpl::emit_rc`) leaves the
shared stream state entirely unchanged — an emission step anywhere in a run
of operations is erasable — and emitting on a stream with zero subscribers
performs no calls at all. -/
theorem emit_is_pure_frame :
    (∀ (st : MState T) (v : T), step st (Op.emit v) = st) ∧
    (∀ (ops1 ops2 : List (Op T)) (v : T),
      run (ops1 ++ Op.emit v :: ops2) = run (ops1 ++ ops2)) ∧
    (∀ (s : StreamImpl T) (v : T),
      Sink.emit s v = StreamImpl.emit_rc s v ∧
      Sink.emit_rc s v = StreamImpl.emit_rc s v ∧
      Stream.emit_rc s v = StreamImpl.emit_rc s v) ∧
    (∀ (hid : Nat) (al : Bool) (ex : Option DynBox) (v : T),
      StreamImpl.emit_rc (⟨hid, al, [], ex⟩ : StreamImpl T) v = []) := by
  refine ⟨fun st v => rfl, ?_, fun s v => ⟨rfl, rfl, rfl⟩, fun hid al ex v => rfl⟩
  intro ops1 ops2 v
  simp [run, runFrom, List.foldl_append, step]

/-- C6: destroying a Sink sets `is_alive` to false and changes nothing
else: the registry, the counter and the extension are untouched, emission
and subscription behave afterwards exactly as before, and along any run the
flag is true exactly until the first sink destruction (a monotonic
true-to-false transition that happens exactly once). -/
theorem sink_drop_only_clears_alive :
    (Stream.new : StreamImpl T).is_alive = true ∧
    (∀ s : StreamImpl T,
      (Sink.drop s).is_alive = false ∧
      (Sink.drop s).highest_id = s.highest_id ∧
      (Sink.drop s).on_emit = s.on_emit ∧
      (Sink.drop s).extra_fields = s.extra_fields ∧
      (∀ v : T, StreamImpl.emit_rc (Sink.drop s) v = StreamImpl.emit_rc s v) ∧
      (∀ cb : CB,
        (StreamImpl.subscribe (Sink.drop s) cb).1 = (StreamImpl.subscribe s cb).1 ∧
        (StreamImpl.subscribe (Sink.drop s) cb).2 =
          Sink.drop (StreamImpl.subscribe s cb).2) ∧
      Stream.count_subscribers (Sink.drop s) = Stream.count_subscribers s) ∧
    (∀ (st : MState T) (ops : List (Op T)),
      (runFrom st ops).impl.is_alive =
        (st.impl.is_alive && ops.all (fun o => !(isSinkDrop o)))) := by
  refine ⟨rfl, fun s => ⟨rfl, rfl, rfl, rfl, fun v => rfl, fun cb => ⟨rfl, rfl⟩, rfl⟩, ?_⟩
  intro st ops
  induction ops generalizing st with
  | nil => simp [runFrom]
  | cons op rest ih =>
    have hstep : runFrom st (op :: rest) = runFrom (step st op) rest := rfl
    rw [hstep, ih]
    cases op <;>
      simp [step, StreamImpl.subscribe, Stream.unsubscribe_by_id, Sink.drop,
        isSinkDrop, Bool.and_assoc]

/-! Reachability invariant of the single-stream state machine. -/

/-- Invariant tying a machine state to the number `n` of subscriptions
created so far: the u16 counter holds `n` modulo 65536, the assigned ids
are exactly 0..n-1 in order, the registry keys are exactly the live
subscription ids, and those are strictly ascending and below `n`. -/
def MInv (st : MState T) (n : Nat) : Prop :=
  st.impl.highest_id = n % 65536 ∧
  st.assigned = List.range n ∧
  keysOf st.impl = st.live ∧
  (∀ k ∈ st.live, k < n) ∧
  st.live.Pairwise (· < ·)

lemma mInv_init : MInv (initState : MState T) 0 := by
  refine ⟨rfl, rfl, rfl, ?_, ?_⟩ <;> simp [initState]

lemma countSubOps_cons (op : Op T) (rest : List (Op T)) :
    countSubOps (op :: rest) = countSubOps [op] + countSubOps rest := by
  simp [countSubOps, List.countP_cons]
  omega

lemma mInv_step (st : MState T) (n : Nat) (op : Op T) (h : MInv st n)
    (hn : n + countSubOps [op] ≤ 65536) :
    MInv (step st op) (n + countSubOps [op]) := by
  obtain ⟨hhi, has, hkeys, hbnd, hpw⟩ := h
  cases op with
  | subscribe listener =>
    have hc : countSubOps [Op.subscribe (T := T) listener] = 1 := by
      simp [countSubOps, List.countP_cons]
    rw [hc] at hn ⊢
    have hlt : n < 65536 := by omega
    have hmod : n % 65536 = n := Nat.mod_eq_of_lt hlt
    have hid : st.impl.highest_id = n := by rw [hhi, hmod]
    have hins : btreeInsert st.impl.highest_id listener st.impl.on_emit =
        st.impl.on_emit ++ [(st.impl.highest_id, listener)] := by
      apply btreeInsert_append_of_lt
      intro e he
      have : e.1 ∈ keysOf st.impl := List.mem_map_of_mem Prod.fst he
      rw [hkeys] at this
      rw [hid]
      exact hbnd e.1 this
    refine ⟨?_, ?_, ?_, ?_, ?_⟩
    · show (st.impl.highest_id + 1) % 65536 = (n + 1) % 65536
      rw [hid]
    · show st.assigned ++ [st.impl.highest_id] = List.range (n + 1)
      rw [hid, has, List.range_succ]
    · show keysOf (StreamImpl.subscribe st.impl listener).2 =
        st.live ++ [st.impl.highest_id]
      show (btreeInsert st.impl.highest_id listener st.impl.on_emit).map Prod.fst = _
      rw [hins, List.map_append]
      show keysOf st.impl ++ [st.impl.highest_id] = _
      rw [hkeys]
    · intro k hk
      rcases List.mem_append.mp hk with hk | hk
      · exact Nat.lt_succ_of_lt (hbnd k hk)
      · have : k = st.impl.highest_id := List.mem_singleton.mp hk
        rw [this, hid]
        exact Nat.lt_succ_self n
    · show (st.live ++ [st.impl.highest_id]).Pairwise (· < ·)
      rw [List.pairwise_append]
      refine ⟨hpw, List.pairwise_singleton _ _, ?_⟩
      intro a ha b hb
      have : b = st.impl.highest_id := List.mem_singleton.mp hb
      rw [this, hid]
      exact hbnd a ha
  | dropSub id =>
    have hc : countSubOps [Op.dropSub (T := T) id] = 0 := by
      simp [countSubOps, List.countP_cons]
    rw [hc]
    refine ⟨hhi, has, ?_, ?_, ?_⟩
    · show (btreeRemove id st.impl.on_emit).map Prod.fst = st.live.erase id
      rw [map_fst_btreeRemove]
      show (keysOf st.impl).erase id = _
      rw [hkeys]
    · intro k hk
      simp only [Nat.add_zero]
      exact hbnd k (List.mem_of_mem_erase hk)
    · exact hpw.sublist (List.erase_sublist id st.live)
  | emit v =>
    have hc : countSubOps [Op.emit v] = 0 := by
      simp [countSubOps, List.countP_cons]
    rw [hc]
    exact ⟨hhi, has, hkeys, fun k hk => by simpa using hbnd k hk, hpw⟩
  | sinkDrop =>
    have hc : countSubOps [Op.sinkDrop (T := T)] = 0 := by
      simp [countSubOps, List.countP_cons]
    rw [hc]
    exact ⟨hhi, has, hkeys, fun k hk => by simpa using hbnd k hk, hpw⟩

lemma mInv_runFrom (ops : List (Op T)) (st : MState T) (n : Nat) (h : MInv st n)
    (hn : n + countSubOps ops ≤ 65536) :
    MInv (runFrom st ops) (n + countSubOps ops) := by
  induction ops generalizing st n with
  | nil =>
    simpa [runFrom, countSubOps] using h
  | cons op rest ih =>
    rw [countSubOps_cons] at hn ⊢
    have h1 : MInv (step st op) (n + countSubOps [op]) :=
      mInv_step st n op h (by omega)
    have h2 : MInv (runFrom (step st op) rest)
        (n + countSubOps [op] + countSubOps rest) :=
      ih (step st op) (n + countSubOps [op]) h1 (by omega)
    have heq : runFrom st (op :: rest) = runFrom (step st op) rest := rfl
    rw [heq]
    have : n + countSubOps [op] + countSubOps rest =
        n + (countSubOps [op] + countSubOps rest) := by omega
    rw [this] at h2
    exact h2

lemma mInv_run (ops : List (Op T)) (hn : countSubOps ops ≤ 65536) :
    MInv (run ops) (countSubOps ops) := by
  have h := mInv_runFrom ops initState 0 mInv_init (by omega)
  simpa using h

/-- C3: at every state reachable by any interleaving of subscribe,
unsubscribe/destruction, emission and sink destruction (within the stated
no-wrap constraint of at most 65536 subscriptions per stream),
`count_subscribers()` equals the number of Subscriptions created by
`subscribe` or `pipe_into` and not yet destroyed. -/
theorem count_subscribers_eq_live_subscriptions (ops : List (Op T))
    (hn : countSubOps ops ≤ 65536) :
    Stream.count_subscribers (run ops).impl = (run ops).live.length := by
  obtain ⟨-, -, hkeys, -, -⟩ := mInv_run ops hn
  have h := congrArg List.length hkeys
  simpa [Stream.count_subscribers, keysOf] using h

/-- Witness for C3 on a concrete operation sequence: two subscriptions, one
destroyed, one emission. -/
theorem count_subscribers_eq_live_subscriptions_witness :
    Stream.count_subscribers
        (run [Op.subscribe (T := Nat) (CB.ext 0), Op.subscribe (CB.ext 1),
              Op.dropSub 0, Op.emit 7]).impl =
      (run [Op.subscribe (T := Nat) (CB.ext 0), Op.subscribe (CB.ext 1),
            Op.dropSub 0, Op.emit 7]).live.length :=
  count_subscribers_eq_live_subscriptions
    [Op.subscribe (CB.ext 0), Op.subscribe (CB.ext 1), Op.dropSub 0, Op.emit 7]
    (by decide)

/-- C5: along any run (within the no-wrap ceiling), the assigned subscriber
ids are exactly 0, 1, 2, ... in creation order — strictly monotone, never
reused — so no two simultaneously-registered subscriptions share an id; and
after exactly 65536 subscriptions the 16-bit counter has wrapped to 0,
which is the ceiling the claim records. -/
theorem subscriber_ids_monotone_fresh (ops : List (Op T))
    (hn : countSubOps ops ≤ 65536) :
    (run ops).assigned = List.range (countSubOps ops) ∧
    (run ops).assigned.Pairwise (· < ·) ∧
    (keysOf (run ops).impl).Nodup ∧
    (countSubOps ops = 65536 → (run ops).impl.highest_id = 0) := by
  obtain ⟨hhi, has, hkeys, hbnd, hpw⟩ := mInv_run ops hn
  refine ⟨has, ?_, ?_, ?_⟩
  · rw [has]
    exact List.pairwise_lt_range _
  · rw [hkeys]
    exact hpw.imp (fun h => Nat.ne_of_lt h)
  · intro h
    rw [hhi, h, Nat.mod_self]

/-- Witness for C5 on a concrete operation sequence with three
subscriptions and an interleaved destruction. -/
theorem subscriber_ids_monotone_fresh_witness :
    (run [Op.subscribe (T := Nat) (CB.ext 0), Op.dropSub 0,
          Op.subscribe (CB.ext 1), Op.emit 9, Op.subscribe (CB.ext 2)]).assigned =
      List.range (countSubOps
        [Op.subscribe (T := Nat) (CB.ext 0), Op.dropSub 0,
         Op.subscribe (CB.ext 1), Op.emit 9, Op.subscribe (CB.ext 2)]) :=
  (subscriber_ids_monotone_fresh
    [Op.subscribe (CB.ext 0), Op.dropSub 0, Op.subscribe (CB.ext 1),
     Op.emit 9, Op.subscribe (CB.ext 2)] (by decide)).1

/-! Lemmas about world emission traces, for the pipe claim. -/

lemma emitTraceW_succ (f : Nat) (w : List (StreamImpl T)) (sid : Nat) (v : T) :
    emitTraceW (f + 1) w sid v =
      match w.get? sid with
      | none => []
      | some s =>
        s.on_emit.flatMap (fun e =>
          (sid, e.1, v) ::
            (match e.2 with
             | CB.ext _ => []
             | CB.forward target => emitTraceW f w target v)) := rfl

lemma filterMap_flatMap {α β γ : Type} (l : List α) (f : α → List β) (g : β → Option γ) :
    (l.flatMap f).filterMap g = l.flatMap (fun a => (f a).filterMap g) := by
  induction l with
  | nil => rfl
  | cons a t ih => rw [List.flatMap_cons, List.filterMap_append, ih, List.flatMap_cons]

lemma flatMapNil {α β : Type} (m : List α) (F : α → List β)
    (h : ∀ e ∈ m, F e = []) : m.flatMap F = [] := by
  induction m with
  | nil => rfl
  | cons a t ih =>
    rw [List.flatMap_cons, h a (List.mem_cons_self a t), List.nil_append]
    exact ih (fun e he => h e (List.mem_cons_of_mem a he))

lemma flatMap_single {β : Type} (m : List (Nat × CB)) (F : Nat × CB → List β)
    (j : Nat) (c : CB) (v : β)
    (hnd : (m.map Prod.fst).Nodup) (hmem : (j, c) ∈ m)
    (hFj : F (j, c) = [v])
    (hF0 : ∀ e ∈ m, e.1 ≠ j → F e = [])
    (hkey : ∀ e ∈ m, e.1 = j → e = (j, c)) :
    m.flatMap F = [v] := by
  induction m with
  | nil => cases hmem
  | cons a t ih =>
    obtain ⟨hhead, htail⟩ := List.nodup_cons.mp hnd
    by_cases haj : a.1 = j
    · have ha : a = (j, c) := hkey a (List.mem_cons_self a t) haj
      have ht0 : t.flatMap F = [] := by
        apply flatMapNil
        intro e he
        have hej : e.1 ≠ j := by
          intro hej
          apply hhead
          rw [haj]
          rw [← hej]
          exact List.mem_map_of_mem Prod.fst he
        exact hF0 e (List.mem_cons_of_mem a he) hej
      rw [List.flatMap_cons, ha, hFj, ht0]
      rfl
    · have ha0 : F a = [] := hF0 a (List.mem_cons_self a t) haj
      have hmem2 : (j, c) ∈ t := by
        rcases List.mem_cons.mp hmem with h | h
        · exact absurd (congrArg Prod.fst h.symm) haj
        · exact h
      rw [List.flatMap_cons, ha0, List.nil_append]
      exact ih htail hmem2
        (fun e he hej => hF0 e (List.mem_cons_of_mem a he) hej)
        (fun e he hej => hkey e (List.mem_cons_of_mem a he) hej)

lemma mem_key_unique {m : List (Nat × CB)} (hnd : (m.map Prod.fst).Nodup)
    {e1 e2 : Nat × CB} (h1 : e1 ∈ m) (h2 : e2 ∈ m) (hk : e1.1 = e2.1) : e1 = e2 :=
  List.inj_on_of_nodup_map hnd h1 h2 hk

lemma pickUniquePairs {m : List (Nat × CB)} {k : Nat} (v : T)
    (hnd : (m.map Prod.fst).Nodup) (hk : k ∈ m.map Prod.fst) :
    m.filterMap (fun e => if e.1 = k then some v else none) = [v] := by
  have h := pickUnique (u := v) hnd hk
  rw [List.filterMap_map] at h
  exact h

lemma traceAux (m : List (Nat × CB)) (w : List (StreamImpl T)) (sid : Nat) (v : T) :
    (m.flatMap (fun e =>
      (sid, e.1, v) ::
        (match e.2 with
         | CB.ext _ => []
         | CB.forward target => emitTraceW 0 w target v))) =
      m.map (fun e => (sid, e.1, v)) := by
  induction m with
  | nil => rfl
  | cons e t ih =>
    rw [List.flatMap_cons, ih]
    have hsing : ((sid, e.1, v) ::
        (match e.2 with
         | CB.ext _ => []
         | CB.forward target => emitTraceW 0 w target v)) = [(sid, e.1, v)] := by
      obtain ⟨e1, e2⟩ := e
      cases e2
      · rfl
      · rfl
    rw [hsing, List.map_cons, List.singleton_append]

lemma traceFuelOne (w : List (StreamImpl T)) (sid : Nat) (v : T) (s : StreamImpl T)
    (hw : w.get? sid = some s) :
    emitTraceW 1 w sid v = s.on_emit.map (fun e => (sid, e.1, v)) := by
  rw [emitTraceW_succ, hw]
  exact traceAux s.on_emit w sid v

lemma eventsAtSub_append (sid k : Nat) (a b : List (Nat × Nat × T)) :
    eventsAtSub sid k (a ++ b) = eventsAtSub sid k a ++ eventsAtSub sid k b := by
  simp [eventsAtSub, List.filterMap_append]

lemma eventsAtStream_append (sid : Nat) (a b : List (Nat × Nat × T)) :
    eventsAtStream sid (a ++ b) = eventsAtStream sid a ++ eventsAtStream sid b := by
  simp [eventsAtStream, List.filterMap_append]

/-- C2: for a forwarding link created by `pipe_into` from stream B into
sink A's stream, the registered callback forwards each shared value from B
straight into A's `emit_rc`: emitting n values on B's sink delivers exactly
those n values, in order and with equal content, to every subscriber of A's
stream; and once the forwarding Subscription has been destroyed (its id
removed from B by `unsubscribe_by_id`), no value emitted on B reaches A. -/
theorem pipe_into_forwards_and_stops (w w2 : List (StreamImpl T))
    (A B : StreamImpl T) (aIdx bIdx j : Nat) (hne : bIdx ≠ aIdx)
    (hwB : w.get? bIdx = some B) (hwA : w.get? aIdx = some A)
    (hBj : (j, CB.forward aIdx) ∈ B.on_emit)
    (hBnd : (keysOf B).Nodup)
    (hBshape : ∀ e ∈ B.on_emit, (∃ l, e.2 = CB.ext l) ∨ e = (j, CB.forward aIdx))
    (_hAext : ∀ e ∈ A.on_emit, ∃ l, e.2 = CB.ext l)
    (hAnd : (keysOf A).Nodup)
    (k : Nat) (hk : k ∈ keysOf A) (vs : List T)
    (hw2 : w2.get? bIdx = some (Stream.unsubscribe_by_id B j)) :
    eventsAtSub aIdx k (vs.flatMap (fun v => emitTraceW 2 w bIdx v)) = vs ∧
    eventsAtStream aIdx (vs.flatMap (fun v => emitTraceW 2 w2 bIdx v)) = [] := by
  have hone : ∀ v : T, eventsAtSub aIdx k (emitTraceW 2 w bIdx v) = [v] := by
    intro v
    rw [show (2 : Nat) = 1 + 1 from rfl, emitTraceW_succ, hwB]
    simp only [eventsAtSub]
    rw [filterMap_flatMap]
    apply flatMap_single _ _ j (CB.forward aIdx) v hBnd hBj
    · show ((bIdx, j, v) :: emitTraceW 1 w aIdx v).filterMap _ = [v]
      rw [List.filterMap_cons]
      simp only [hne, false_and, if_false]
      rw [traceFuelOne w aIdx v A hwA, List.filterMap_map]
      show A.on_emit.filterMap
        (fun e => if aIdx = aIdx ∧ e.1 = k then some v else none) = [v]
      have hfun : (fun e : Nat × CB => if aIdx = aIdx ∧ e.1 = k then some v else none) =
          (fun e : Nat × CB => if e.1 = k then some v else none) := by
        funext e
        simp
      rw [hfun]
      exact pickUniquePairs v hAnd hk
    · intro e he hej
      rcases hBshape e he with ⟨l, hl⟩ | he2
      · obtain ⟨e1, e2⟩ := e
        simp only at hl
        subst hl
        show ((bIdx, e1, v) :: []).filterMap _ = []
        simp [hne]
      · exact absurd (congrArg Prod.fst he2) hej
    · intro e he hej
      exact mem_key_unique hBnd he hBj hej
  have hB2ext : ∀ e ∈ (Stream.unsubscribe_by_id B j).on_emit, ∃ l, e.2 = CB.ext l := by
    intro e he
    have hesub : e ∈ B.on_emit := (btreeRemove_sublist B.on_emit j).subset he
    rcases hBshape e hesub with h | h
    · exact h
    · exfalso
      have hj : j ∉ (btreeRemove j B.on_emit).map Prod.fst := by
        rw [map_fst_btreeRemove]
        exact List.Nodup.not_mem_erase hBnd
      apply hj
      have hmem : e.1 ∈ (btreeRemove j B.on_emit).map Prod.fst :=
        List.mem_map_of_mem Prod.fst he
      rw [h] at hmem
      exact hmem
  have honeB : ∀ v : T, eventsAtStream aIdx (emitTraceW 2 w2 bIdx v) = [] := by
    intro v
    rw [show (2 : Nat) = 1 + 1 from rfl, emitTraceW_succ, hw2]
    simp only [eventsAtStream]
    rw [filterMap_flatMap]
    apply flatMapNil
    intro e he
    rcases hB2ext e he with ⟨l, hl⟩
    obtain ⟨e1, e2⟩ := e
    simp only at hl
    subst hl
    show ((bIdx, e1, v) :: []).filterMap _ = []
    simp [hne]
  constructor
  · induction vs with
    | nil => rfl
    | cons u us ih =>
      rw [List.flatMap_cons, eventsAtSub_append, hone u, ih]
      rfl
  · induction vs with
    | nil => rfl
    | cons u us ih =>
      rw [List.flatMap_cons, eventsAtStream_append, honeB u, ih]
      rfl

/-- Witness for C2 on a concrete world: stream B (index 0) holds only the
pipe's forwarding entry into A (index 1); A has one subscriber with id 5. -/
theorem pipe_into_forwards_and_stops_witness :
    eventsAtSub 1 5 ([3, 100].flatMap (fun v =>
      emitTraceW 2
        [(⟨1, true, [(0, CB.forward 1)], none⟩ : StreamImpl Nat),
         ⟨1, true, [(5, CB.ext 0)], none⟩] 0 v)) = [3, 100] ∧
    eventsAtStream 1 ([3, 100].flatMap (fun v =>
      emitTraceW 2
        [Stream.unsubscribe_by_id
           (⟨1, true, [(0, CB.forward 1)], none⟩ : StreamImpl Nat) 0,
         ⟨1, true, [(5, CB.ext 0)], none⟩] 0 v)) = [] :=
  pipe_into_forwards_and_stops
    [(⟨1, true, [(0, CB.forward 1)], none⟩ : StreamImpl Nat),
     ⟨1, true, [(5, CB.ext 0)], none⟩]
    [Stream.unsubscribe_by_id
       (⟨1, true, [(0, CB.forward 1)], none⟩ : StreamImpl Nat) 0,
     ⟨1, true, [(5, CB.ext 0)], none⟩]
    (⟨1, true, [(5, CB.ext 0)], none⟩ : StreamImpl Nat)
    (⟨1, true, [(0, CB.forward 1)], none⟩ : StreamImpl Nat)
    1 0 0 (by decide) rfl rfl (by decide) (by decide)
    (by
      intro e he
      right
      simpa using he)
    (by
      intro e he
      have h5 : e = (5, CB.ext 0) := by simpa using he
      exact ⟨0, by rw [h5]⟩)
    (by decide) 5 (by decide) [3, 100] rfl
